import Mathlib

/-!
Shallow embedding of the Flycacher cache (src/index.ts), a FIFO key-value
cache with capacity-based pruning, optional TTL expiry, and a miss resolver.

The JavaScript `Map` is modelled as an insertion-ordered association list
`List (K × Entry V)`; every state reachable through the public API has
pairwise-distinct keys, and the list operations below mirror the `Map`
methods on such states (first-occurrence lookup and deletion).  `Date.now()`
is modelled by passing the observed time explicitly to each operation; the
resolver is passed to `get` rather than stored, so that cache states keep
decidable equality.  A resolver that may throw or reject is modelled as a
function into `Except E V`.
-/

set_option autoImplicit false

variable {K V E : Type}

/-- Mirrors `interface Entry<T> { value: T; entered: number }`. -/
structure Entry (V : Type) where
  value : V
  entered : Int
  deriving Repr, DecidableEq

/-- Mirrors `interface FlycacherOptions` (`capacity`, `prune`, optional `ttl`).
`ttl = none` models an omitted `ttl` field. -/
structure FlycacherOptions where
  capacity : Nat
  prune : Nat
  ttl : Option Int
  deriving Repr, DecidableEq

/-- The mutable state of a `Flycacher<K, V>` instance: the insertion-ordered
map `values`, the configuration fields, and the `oldest` timestamp cursor. -/
structure Flycacher (K V : Type) where
  values : List (K × Entry V)
  capacity : Nat
  pruneAmount : Nat
  ttl : Option Int
  oldest : Int
  deriving Repr, DecidableEq

/-- `Map.get`: the value stored at the first (in a real `Map`, only)
occurrence of `k`, or `none`. -/
def mapGet [DecidableEq K] (l : List (K × Entry V)) (k : K) : Option (Entry V) :=
  match l with
  | [] => none
  | (k', e) :: tl => if k' = k then some e else mapGet tl k

/-- `Map.set`: replace the value at `k` in place if present, else append
`(k, e)` at the newest position. -/
def mapSet [DecidableEq K] (l : List (K × Entry V)) (k : K) (e : Entry V) :
    List (K × Entry V) :=
  match l with
  | [] => [(k, e)]
  | (k', e') :: tl => if k' = k then (k, e) :: tl else (k', e') :: mapSet tl k e

/-- `Map.delete`: remove the first (only) occurrence of `k`, if any. -/
def mapDelete [DecidableEq K] (l : List (K × Entry V)) (k : K) :
    List (K × Entry V) :=
  match l with
  | [] => []
  | (k', e) :: tl => if k' = k then tl else (k', e) :: mapDelete tl k

/-- The constructor: `missCallback` is not part of the state (it is passed to
`get` in this embedding); `this.ttl = options.ttl || null` maps `0` to `null`;
`oldest` is initialised to the construction time (`Date.now()`). -/
def Flycacher.construct (K V : Type) (now : Int) (options : FlycacherOptions) :
    Flycacher K V :=
  { values := []
    capacity := options.capacity
    pruneAmount := options.prune
    ttl := options.ttl.bind (fun t => if t = 0 then none else some t)
    oldest := now }

/-- `clear()`: `this.values.clear()`. -/
def Flycacher.clear (c : Flycacher K V) : Flycacher K V :=
  { c with values := [] }

/-- `delete(key)`: `this.values.delete(key)`. -/
def Flycacher.delete [DecidableEq K] (c : Flycacher K V) (k : K) : Flycacher K V :=
  { c with values := mapDelete c.values k }

/-- The `for (const key of this.values.keys())` loop of `prune`: delete the
current (first remaining) key, then break once
`size <= capacity - pruneAmount`.  The comparison is over `Int`, as in
JavaScript, since `capacity - pruneAmount` may be negative. -/
def Flycacher.capacityLoop (capacity pruneAmount : Nat) :
    List (K × Entry V) → List (K × Entry V)
  | [] => []
  | _ :: tl =>
    if (tl.length : Int) ≤ (capacity : Int) - (pruneAmount : Int) then tl
    else Flycacher.capacityLoop capacity pruneAmount tl

/-- The capacity pass of `prune`: the loop runs only when
`this.values.size > this.capacity`. -/
def Flycacher.capacityPhase (c : Flycacher K V) : List (K × Entry V) :=
  if (c.values.length : Int) > (c.capacity : Int) then
    Flycacher.capacityLoop c.capacity c.pruneAmount c.values
  else c.values

/-- The `for (const [key, value] of this.values)` loop of the TTL pass:
delete each entry with `value.entered < expiry`; at the first entry that is
not expired, record its timestamp (the `this.oldest = value.entered`
assignment, returned as `some`) and break.  Returns the surviving list and
the recorded timestamp (`none` when the loop exhausts without breaking). -/
def Flycacher.ttlLoop (expiry : Int) :
    List (K × Entry V) → List (K × Entry V) × Option Int
  | [] => ([], none)
  | (k, e) :: tl =>
    if e.entered < expiry then Flycacher.ttlLoop expiry tl
    else ((k, e) :: tl, some e.entered)

/-- `prune()`: the capacity pass, then the TTL pass guarded by
`this.ttl && this.values.size > 0 && this.ttl > 0`, with the
`oldest < expiry` fast path and the `size === 0` reset of `oldest`. -/
def Flycacher.prune (now : Int) (c : Flycacher K V) : Flycacher K V :=
  let vals1 := c.capacityPhase
  match c.ttl with
  | none => { c with values := vals1 }
  | some t =>
    if t ≠ 0 ∧ vals1.length > 0 ∧ t > 0 then
      let expiry := now - t
      let scanned :=
        if c.oldest < expiry then Flycacher.ttlLoop expiry vals1
        else (vals1, none)
      let oldest1 := scanned.2.getD c.oldest
      let oldest2 := if scanned.1.length = 0 then now else oldest1
      { c with values := scanned.1, oldest := oldest2 }
    else { c with values := vals1 }

/-- `async get(key)`: prune, then return the hit, else invoke the resolver
and cache its result with `entered = Date.now()`.  `nowPrune` is the time
observed by the `prune()` call and `nowInsert` the (no earlier) time observed
by the `this.values.set` after the resolver returns.  The result is the new
state, the returned value (`Except.error` models a thrown/rejected resolver
failure propagating to the caller), and the number of resolver invocations
made during the call. -/
def Flycacher.get [DecidableEq K] (nowPrune nowInsert : Int)
    (resolver : K → Except E V) (k : K) (c : Flycacher K V) :
    Flycacher K V × Except E V × Nat :=
  let c1 := c.prune nowPrune
  match mapGet c1.values k with
  | some e => (c1, Except.ok e.value, 0)
  | none =>
    match resolver k with
    | Except.ok v =>
      ({ c1 with values := mapSet c1.values k ⟨v, nowInsert⟩ }, Except.ok v, 1)
    | Except.error err => (c1, Except.error err, 1)

/-- Entries of the ordered map carry non-decreasing insertion timestamps.
This holds in every reachable state when the clock is monotone, and is what
justifies the TTL scan stopping at the first non-expired entry. -/
def timesSorted (l : List (K × Entry V)) : Prop :=
  l.Pairwise (fun a b => a.2.entered ≤ b.2.entered)

/-- The `oldest` cursor is conservative: never newer than the insertion
timestamp of any surviving entry. -/
def Flycacher.oldestConservative (c : Flycacher K V) : Prop :=
  ∀ p ∈ c.values, c.oldest ≤ p.2.entered

instance (l : List (K × Entry V)) : Decidable (timesSorted l) :=
  inferInstanceAs (Decidable (l.Pairwise _))

instance (c : Flycacher K V) : Decidable c.oldestConservative :=
  inferInstanceAs (Decidable (∀ p ∈ c.values, _))

/-! ### Lemmas about the ordered-map primitives -/

theorem mapGet_eq_none_iff [DecidableEq K] {l : List (K × Entry V)} {k : K} :
    mapGet l k = none ↔ ∀ e : Entry V, (k, e) ∉ l := by
  induction l with
  | nil => simp [mapGet]
  | cons hd tl ih =>
    obtain ⟨k', e'⟩ := hd
    by_cases hk : k' = k
    · subst hk
      simp only [mapGet, if_pos rfl]
      constructor
      · intro h
        cases h
      · intro h
        exact absurd (List.mem_cons_self (k', e') tl) (h e')
    · simp only [mapGet, if_neg hk, ih, List.mem_cons]
      constructor
      · intro h e hmem
        rcases hmem with h1 | h1
        · exact hk (congrArg Prod.fst h1).symm
        · exact h e h1
      · intro h e hmem
        exact h e (Or.inr hmem)

theorem mapSet_of_mapGet_none [DecidableEq K] {l : List (K × Entry V)} {k : K}
    (h : mapGet l k = none) (e : Entry V) : mapSet l k e = l ++ [(k, e)] := by
  induction l with
  | nil => simp [mapSet]
  | cons hd tl ih =>
    obtain ⟨k', e'⟩ := hd
    by_cases hk : k' = k
    · subst hk
      simp [mapGet] at h
    · simp only [mapGet, if_neg hk] at h
      simp [mapSet, if_neg hk, ih h]

theorem mapGet_append_singleton [DecidableEq K] {l : List (K × Entry V)} {k : K}
    {e : Entry V} (h : mapGet l k = none) : mapGet (l ++ [(k, e)]) k = some e := by
  induction l with
  | nil => simp [mapGet]
  | cons hd tl ih =>
    obtain ⟨k', e'⟩ := hd
    by_cases hk : k' = k
    · subst hk
      simp [mapGet] at h
    · simp only [mapGet, if_neg hk] at h
      simp [mapGet, if_neg hk, ih h]

theorem mapDelete_sublist [DecidableEq K] (l : List (K × Entry V)) (k : K) :
    (mapDelete l k).Sublist l := by
  induction l with
  | nil => simp [mapDelete]
  | cons hd tl ih =>
    obtain ⟨k', e⟩ := hd
    by_cases hk : k' = k
    · simp only [mapDelete, if_pos hk]
      exact List.sublist_cons_self (k', e) tl
    · simp only [mapDelete, if_neg hk]
      exact List.Sublist.cons₂ (k', e) ih

/-! ### The capacity loop -/

theorem capacityLoop_length_le (capacity pruneAmount : Nat)
    (l : List (K × Entry V)) :
    (Flycacher.capacityLoop capacity pruneAmount l).length ≤ capacity := by
  induction l with
  | nil => simp [Flycacher.capacityLoop]
  | cons hd tl ih =>
    by_cases h : (tl.length : Int) ≤ (capacity : Int) - (pruneAmount : Int)
    · simp only [Flycacher.capacityLoop, if_pos h]
      have : (tl.length : Int) ≤ (capacity : Int) := by omega
      exact_mod_cast this
    · simpa only [Flycacher.capacityLoop, if_neg h] using ih

theorem capacityLoop_eq_drop (capacity pruneAmount : Nat)
    (l : List (K × Entry V)) :
    ∃ m, Flycacher.capacityLoop capacity pruneAmount l = l.drop m := by
  induction l with
  | nil => exact ⟨0, rfl⟩
  | cons hd tl ih =>
    by_cases h : (tl.length : Int) ≤ (capacity : Int) - (pruneAmount : Int)
    · exact ⟨1, by simp [Flycacher.capacityLoop, if_pos h]⟩
    · obtain ⟨m, hm⟩ := ih
      exact ⟨m + 1, by simp [Flycacher.capacityLoop, if_neg h, hm]⟩

theorem capacityLoop_drop_formula (capacity pruneAmount : Nat)
    (l : List (K × Entry V)) (h : l ≠ []) :
    Flycacher.capacityLoop capacity pruneAmount l =
      l.drop (max 1 (l.length - (capacity - pruneAmount))) := by
  induction l with
  | nil => exact absurd rfl h
  | cons hd tl ih =>
    by_cases hb : (tl.length : Int) ≤ (capacity : Int) - (pruneAmount : Int)
    · have hmax : max 1 ((hd :: tl).length - (capacity - pruneAmount)) = 1 := by
        simp only [List.length_cons]
        omega
      rw [hmax]
      simp [Flycacher.capacityLoop, if_pos hb]
    · rcases tl with _ | ⟨hd2, tl2⟩
      · simp only [List.length_nil, Nat.cast_zero] at hb
        have hpa : capacity < pruneAmount := by omega
        have hmax : max 1 ((hd :: []).length - (capacity - pruneAmount)) = 1 := by
          simp only [List.length_cons, List.length_nil]
          omega
        simp [Flycacher.capacityLoop, hmax]
      · have htl : (hd2 :: tl2) ≠ [] := by simp
        have hlen : capacity - pruneAmount < (hd2 :: tl2).length := by
          by_contra hc
          push_neg at hc
          have h1 : ((hd2 :: tl2).length : Int) ≤ (capacity : Int) - (pruneAmount : Int) ∨
              pruneAmount > capacity := by omega
          rcases h1 with h1 | h1
          · exact hb h1
          · have : capacity - pruneAmount = 0 := by omega
            rw [this] at hc
            simp at hc
        have hmax2 : max 1 ((hd2 :: tl2).length - (capacity - pruneAmount)) =
            (hd2 :: tl2).length - (capacity - pruneAmount) := by omega
        have hmax1 : max 1 ((hd :: hd2 :: tl2).length - (capacity - pruneAmount)) =
            (hd2 :: tl2).length - (capacity - pruneAmount) + 1 := by
          simp only [List.length_cons] at hlen ⊢
          omega
        rw [Flycacher.capacityLoop, if_neg hb, ih htl, hmax2, hmax1]
        rfl

theorem capacityPhase_eq_drop (c : Flycacher K V) :
    ∃ m, c.capacityPhase = c.values.drop m := by
  unfold Flycacher.capacityPhase
  by_cases h : (c.values.length : Int) > (c.capacity : Int)
  · rw [if_pos h]
    exact capacityLoop_eq_drop c.capacity c.pruneAmount c.values
  · rw [if_neg h]
    exact ⟨0, rfl⟩

theorem capacityPhase_length_le (c : Flycacher K V) :
    c.capacityPhase.length ≤ c.capacity := by
  unfold Flycacher.capacityPhase
  by_cases h : (c.values.length : Int) > (c.capacity : Int)
  · rw [if_pos h]
    exact capacityLoop_length_le c.capacity c.pruneAmount c.values
  · rw [if_neg h]
    omega

/-! ### The TTL scan loop -/

theorem ttlLoop_eq_drop (expiry : Int) (l : List (K × Entry V)) :
    ∃ m, (Flycacher.ttlLoop expiry l).1 = l.drop m := by
  induction l with
  | nil => exact ⟨0, rfl⟩
  | cons hd tl ih =>
    obtain ⟨k, e⟩ := hd
    by_cases h : e.entered < expiry
    · obtain ⟨m, hm⟩ := ih
      exact ⟨m + 1, by simp [Flycacher.ttlLoop, if_pos h, hm]⟩
    · exact ⟨0, by simp [Flycacher.ttlLoop, if_neg h]⟩

theorem ttlLoop_snd_none (expiry : Int) (l : List (K × Entry V))
    (h : (Flycacher.ttlLoop expiry l).2 = none) :
    (Flycacher.ttlLoop expiry l).1 = [] := by
  induction l with
  | nil => rfl
  | cons hd tl ih =>
    obtain ⟨k, e⟩ := hd
    by_cases hc : e.entered < expiry
    · simp only [Flycacher.ttlLoop, if_pos hc] at h ⊢
      exact ih h
    · simp [Flycacher.ttlLoop, if_neg hc] at h

theorem ttlLoop_snd_some (expiry : Int) (l : List (K × Entry V)) (t : Int)
    (h : (Flycacher.ttlLoop expiry l).2 = some t) : expiry ≤ t := by
  induction l with
  | nil => simp [Flycacher.ttlLoop] at h
  | cons hd tl ih =>
    obtain ⟨k, e⟩ := hd
    by_cases hc : e.entered < expiry
    · simp only [Flycacher.ttlLoop, if_pos hc] at h
      exact ih h
    · simp only [Flycacher.ttlLoop, if_neg hc, Option.some.injEq] at h
      omega

theorem ttlLoop_mem_ge (expiry : Int) (l : List (K × Entry V))
    (hmono : timesSorted l) :
    ∀ p ∈ (Flycacher.ttlLoop expiry l).1, expiry ≤ p.2.entered := by
  induction l with
  | nil => simp [Flycacher.ttlLoop]
  | cons hd tl ih =>
    obtain ⟨k, e⟩ := hd
    rw [timesSorted, List.pairwise_cons] at hmono
    by_cases hc : e.entered < expiry
    · simp only [Flycacher.ttlLoop, if_pos hc]
      exact ih hmono.2
    · simp only [Flycacher.ttlLoop, if_neg hc]
      intro p hp
      rcases List.mem_cons.mp hp with hp | hp
      · subst hp
        exact not_lt.mp hc
      · exact le_trans (not_lt.mp hc) (hmono.1 p hp)

theorem ttlLoop_snd_some_le (expiry : Int) (l : List (K × Entry V)) (t : Int)
    (hmono : timesSorted l) (h : (Flycacher.ttlLoop expiry l).2 = some t) :
    ∀ p ∈ (Flycacher.ttlLoop expiry l).1, t ≤ p.2.entered := by
  induction l with
  | nil => simp [Flycacher.ttlLoop] at h
  | cons hd tl ih =>
    obtain ⟨k, e⟩ := hd
    rw [timesSorted, List.pairwise_cons] at hmono
    by_cases hc : e.entered < expiry
    · simp only [Flycacher.ttlLoop, if_pos hc] at h ⊢
      exact ih hmono.2 h
    · simp only [Flycacher.ttlLoop, if_neg hc, Option.some.injEq] at h ⊢
      subst h
      intro p hp
      rcases List.mem_cons.mp hp with hp | hp
      · subst hp
        exact le_refl _
      · exact hmono.1 p hp

/-! ### Structural lemmas about `prune` -/

theorem prune_capacity (now : Int) (c : Flycacher K V) :
    (c.prune now).capacity = c.capacity := by
  simp only [Flycacher.prune]
  cases hT : c.ttl
  · rfl
  · dsimp only
    split_ifs <;> rfl

theorem prune_pruneAmount (now : Int) (c : Flycacher K V) :
    (c.prune now).pruneAmount = c.pruneAmount := by
  simp only [Flycacher.prune]
  cases hT : c.ttl
  · rfl
  · dsimp only
    split_ifs <;> rfl

theorem prune_ttl (now : Int) (c : Flycacher K V) :
    (c.prune now).ttl = c.ttl := by
  simp only [Flycacher.prune]
  cases hT : c.ttl
  · rfl
  · dsimp only
    split_ifs <;> rfl

theorem prune_values_eq_drop (now : Int) (c : Flycacher K V) :
    ∃ m, (c.prune now).values = c.values.drop m := by
  obtain ⟨m1, h1⟩ := capacityPhase_eq_drop c
  simp only [Flycacher.prune]
  cases hT : c.ttl with
  | none => exact ⟨m1, h1⟩
  | some t =>
    dsimp only
    split_ifs with hg ho <;> dsimp only <;>
      try exact ⟨m1, h1⟩
    all_goals obtain ⟨m2, h2⟩ := ttlLoop_eq_drop (now - t) c.capacityPhase
    all_goals refine ⟨m1 + m2, ?_⟩
    all_goals rw [h2, h1, List.drop_drop]

theorem prune_length_le (now : Int) (c : Flycacher K V) :
    (c.prune now).values.length ≤ c.capacity := by
  have hphase := capacityPhase_length_le c
  simp only [Flycacher.prune]
  cases hT : c.ttl with
  | none => exact hphase
  | some t =>
    dsimp only
    split_ifs with hg ho <;> dsimp only <;>
      try exact hphase
    all_goals obtain ⟨m2, h2⟩ := ttlLoop_eq_drop (now - t) c.capacityPhase
    all_goals rw [h2, List.length_drop]
    all_goals omega

theorem prune_oldest_not_lt {c : Flycacher K V} {t : Int} (hT : c.ttl = some t)
    (ht : 0 < t) (now : Int) (hne : (c.prune now).values ≠ []) :
    ¬ ((c.prune now).oldest < now - t) := by
  simp only [Flycacher.prune, hT] at hne ⊢
  split_ifs at hne ⊢ with hg ho hz1 hz2
  · exact absurd (List.length_eq_zero.mp hz1) hne
  · cases hs : (Flycacher.ttlLoop (now - t) c.capacityPhase).2 with
    | none => exact absurd (ttlLoop_snd_none _ _ hs) hne
    | some t2 =>
      have hle := ttlLoop_snd_some (now - t) c.capacityPhase t2 hs
      intro hlt
      have hlt2 : t2 < now - t := hlt
      omega
  · exact absurd (List.length_eq_zero.mp hz2) hne
  · exact ho
  · have hl : ¬ c.capacityPhase.length > 0 := by
      intro hl
      exact hg ⟨by omega, hl, ht⟩
    have hnil : c.capacityPhase = [] := by
      cases hcp : c.capacityPhase with
      | nil => rfl
      | cons a l =>
        rw [hcp] at hl
        simp at hl
    exact absurd hnil hne

theorem prune_noop (now : Int) (c : Flycacher K V)
    (hlen : c.values.length ≤ c.capacity)
    (hold : ∀ t, c.ttl = some t → 0 < t → c.values ≠ [] → ¬(c.oldest < now - t)) :
    c.prune now = c := by
  have hphase : c.capacityPhase = c.values := by
    unfold Flycacher.capacityPhase
    rw [if_neg]
    push_neg
    exact_mod_cast hlen
  obtain ⟨vals, cap, pa, ttl, old⟩ := c
  cases ttl with
  | none => simp only [Flycacher.prune, hphase]
  | some t =>
    simp only [Flycacher.prune, hphase]
    split_ifs with hg ho hz1 hz2
    · obtain ⟨ht0, hl0, htpos⟩ := hg
      have hne : vals ≠ [] := by
        intro h
        rw [h] at hl0
        simp at hl0
      exact absurd ho (hold t rfl htpos hne)
    · obtain ⟨ht0, hl0, htpos⟩ := hg
      have hne : vals ≠ [] := by
        intro h
        rw [h] at hl0
        simp at hl0
      exact absurd ho (hold t rfl htpos hne)
    · obtain ⟨ht0, hl0, htpos⟩ := hg
      have hz : vals.length = 0 := hz2
      omega
    · rfl
    · rfl

theorem prune_mem_entered_ge {c : Flycacher K V} {t : Int} (hT : c.ttl = some t)
    (ht : 0 < t) (now : Int) (hmono : timesSorted c.values)
    (hcons : c.oldestConservative) :
    ∀ p ∈ (c.prune now).values, now - t ≤ p.2.entered := by
  obtain ⟨m1, h1⟩ := capacityPhase_eq_drop c
  have hsub : c.capacityPhase.Sublist c.values := by
    rw [h1]
    exact List.drop_sublist m1 c.values
  have hmono1 : timesSorted c.capacityPhase := List.Pairwise.sublist hsub hmono
  simp only [Flycacher.prune, hT]
  split_ifs with hg ho hz1 hz2 <;> intro p hp
  · exact ttlLoop_mem_ge (now - t) c.capacityPhase hmono1 p hp
  · exact ttlLoop_mem_ge (now - t) c.capacityPhase hmono1 p hp
  · have h2 := hcons p (hsub.subset hp)
    omega
  · have h2 := hcons p (hsub.subset hp)
    omega
  · have hl : c.capacityPhase.length = 0 := by
      by_contra hl
      exact hg ⟨by omega, by omega, ht⟩
    have hnil : c.capacityPhase = [] := List.length_eq_zero.mp hl
    have hp2 : p ∈ c.capacityPhase := hp
    rw [hnil] at hp2
    simp at hp2

theorem prune_oldestConservative (now : Int) (c : Flycacher K V)
    (hmono : timesSorted c.values) (hcons : c.oldestConservative) :
    (c.prune now).oldestConservative := by
  obtain ⟨m1, h1⟩ := capacityPhase_eq_drop c
  have hsub : c.capacityPhase.Sublist c.values := by
    rw [h1]
    exact List.drop_sublist m1 c.values
  have hmono1 : timesSorted c.capacityPhase := List.Pairwise.sublist hsub hmono
  unfold Flycacher.oldestConservative
  simp only [Flycacher.prune]
  cases hT : c.ttl with
  | none =>
    intro p hp
    exact hcons p (hsub.subset hp)
  | some t =>
    dsimp only
    split_ifs with hg ho hz1 hz2 <;> intro p hp
    · have hnil : (Flycacher.ttlLoop (now - t) c.capacityPhase).1 = [] :=
        List.length_eq_zero.mp hz1
      have hp2 : p ∈ (Flycacher.ttlLoop (now - t) c.capacityPhase).1 := hp
      rw [hnil] at hp2
      simp at hp2
    · cases hs : (Flycacher.ttlLoop (now - t) c.capacityPhase).2 with
      | none =>
        have hnil := ttlLoop_snd_none (now - t) c.capacityPhase hs
        have hp2 : p ∈ (Flycacher.ttlLoop (now - t) c.capacityPhase).1 := hp
        rw [hnil] at hp2
        simp at hp2
      | some t2 =>
        exact ttlLoop_snd_some_le (now - t) c.capacityPhase t2 hmono1 hs p hp
    · have hnil : c.capacityPhase = [] := List.length_eq_zero.mp hz2
      have hp2 : p ∈ c.capacityPhase := hp
      rw [hnil] at hp2
      simp at hp2
    · exact hcons p (hsub.subset hp)
    · exact hcons p (hsub.subset hp)

/-! ### Unfolding lemmas for `get` -/

theorem get_hit_eq [DecidableEq K] {np ni : Int} {resolver : K → Except E V}
    {k : K} {c : Flycacher K V} {e : Entry V}
    (h : mapGet (c.prune np).values k = some e) :
    c.get np ni resolver k = (c.prune np, Except.ok e.value, 0) := by
  simp only [Flycacher.get, h]

theorem get_miss_ok_eq [DecidableEq K] {np ni : Int} {resolver : K → Except E V}
    {k : K} {c : Flycacher K V} {v : V}
    (hm : mapGet (c.prune np).values k = none)
    (hr : resolver k = Except.ok v) :
    c.get np ni resolver k =
      ({ c.prune np with values := (c.prune np).values ++ [(k, ⟨v, ni⟩)] },
        Except.ok v, 1) := by
  simp only [Flycacher.get, hm, hr]
  rw [mapSet_of_mapGet_none hm]

theorem get_miss_error_eq [DecidableEq K] {np ni : Int}
    {resolver : K → Except E V} {k : K} {c : Flycacher K V} {err : E}
    (hm : mapGet (c.prune np).values k = none)
    (hr : resolver k = Except.error err) :
    c.get np ni resolver k = (c.prune np, Except.error err, 1) := by
  simp only [Flycacher.get, hm, hr]

theorem mapGet_append_left_none [DecidableEq K] {l1 : List (K × Entry V)}
    (l2 : List (K × Entry V)) {k : K} (h : mapGet l1 k = none) :
    mapGet (l1 ++ l2) k = mapGet l2 k := by
  induction l1 with
  | nil => rfl
  | cons hd tl ih =>
    obtain ⟨k', e'⟩ := hd
    by_cases hk : k' = k
    · simp [mapGet, if_pos hk] at h
    · simp only [mapGet, if_neg hk] at h
      simp only [List.cons_append, mapGet, if_neg hk]
      exact ih h

theorem mapGet_drop_append [DecidableEq K] {l : List (K × Entry V)} {k : K}
    {e : Entry V} (hnone : mapGet l k = none) (j : Nat)
    (h : mapGet ((l ++ [(k, e)]).drop j) k ≠ none) :
    mapGet ((l ++ [(k, e)]).drop j) k = some e := by
  rw [List.drop_append_eq_append_drop] at h ⊢
  have hdropnone : mapGet (l.drop j) k = none := by
    rw [mapGet_eq_none_iff] at hnone ⊢
    intro e2 hmem
    exact hnone e2 ((List.drop_sublist j l).subset hmem)
  rw [mapGet_append_left_none _ hdropnone] at h ⊢
  cases hj : j - l.length with
  | zero =>
    simp [mapGet]
  | succ n =>
    rw [hj] at h
    simp [mapGet] at h

theorem ttlLoop_snd_some_mem (expiry : Int) (l : List (K × Entry V)) (t : Int)
    (h : (Flycacher.ttlLoop expiry l).2 = some t) : ∃ p ∈ l, p.2.entered = t := by
  induction l with
  | nil => simp [Flycacher.ttlLoop] at h
  | cons hd tl ih =>
    obtain ⟨k, e⟩ := hd
    by_cases hc : e.entered < expiry
    · simp only [Flycacher.ttlLoop, if_pos hc] at h
      obtain ⟨p, hp, hpe⟩ := ih h
      exact ⟨p, List.mem_cons_of_mem _ hp, hpe⟩
    · simp only [Flycacher.ttlLoop, if_neg hc, Option.some.injEq] at h
      exact ⟨(k, e), List.mem_cons_self _ _, h⟩

theorem prune_oldest_le (np : Int) (c : Flycacher K V)
    (holdnp : c.oldest ≤ np) (hentered : ∀ p ∈ c.values, p.2.entered ≤ np) :
    (c.prune np).oldest ≤ np := by
  obtain ⟨m1, h1⟩ := capacityPhase_eq_drop c
  have hsub : c.capacityPhase.Sublist c.values := by
    rw [h1]
    exact List.drop_sublist m1 c.values
  simp only [Flycacher.prune]
  cases hT : c.ttl with
  | none => exact holdnp
  | some t =>
    dsimp only
    split_ifs with hg ho hz1 hz2
    · exact le_refl np
    · cases hs : (Flycacher.ttlLoop (np - t) c.capacityPhase).2 with
      | none => exact holdnp
      | some t2 =>
        obtain ⟨p, hp, hpe⟩ := ttlLoop_snd_some_mem (np - t) c.capacityPhase t2 hs
        have := hentered p (hsub.subset hp)
        show t2 ≤ np
        omega
    · exact le_refl np
    · exact holdnp
    · exact holdnp

/-! ### C1 -/

/-- **C1** (counterexample): the mapping's size can exceed `capacity`
immediately after a `get` call returns: a miss on a full cache prunes first
(no-op at `size = capacity`) and then inserts, leaving `capacity + 1`
entries. -/
theorem get_size_can_exceed_capacity :
    (Flycacher.get 5 5 (fun _ => (Except.ok 99 : Except Unit Int)) 7
        { values := [(0, ⟨10, 0⟩), (1, ⟨11, 1⟩), (2, ⟨12, 2⟩)],
          capacity := 3, pruneAmount := 2, ttl := none,
          oldest := 0 }).1.values.length = 4 ∧
    ({ values := [(0, ⟨10, 0⟩), (1, ⟨11, 1⟩), (2, ⟨12, 2⟩)],
       capacity := 3, pruneAmount := 2, ttl := none,
       oldest := 0 } : Flycacher Nat Int).capacity = 3 := by
  decide

/-- **C1** (amended): immediately after any `prune` call the size is at most
`capacity`; immediately after any `get` call it is at most `capacity + 1`
(the overflow is corrected by the prune at the start of the next
`get`/`prune`). -/
theorem size_bound_after_prune_and_get [DecidableEq K] (now np ni : Int)
    (resolver : K → Except E V) (k : K) (c : Flycacher K V) :
    (c.prune now).values.length ≤ c.capacity ∧
    (c.get np ni resolver k).1.values.length ≤ c.capacity + 1 := by
  have hp := prune_length_le np c
  constructor
  · exact prune_length_le now c
  · simp only [Flycacher.get]
    cases hm : mapGet (c.prune np).values k with
    | some e =>
      show (c.prune np).values.length ≤ c.capacity + 1
      omega
    | none =>
      cases hr : resolver k with
      | ok v =>
        show (mapSet (c.prune np).values k ⟨v, ni⟩).length ≤ c.capacity + 1
        rw [mapSet_of_mapGet_none hm, List.length_append]
        simp only [List.length_singleton]
        omega
      | error err =>
        show (c.prune np).values.length ≤ c.capacity + 1
        omega

/-! ### C2 -/

/-- **C2** (counterexample): with `ttl = 100`, an entry inserted at `t0 = 0`
is still present after a `prune` call at exactly `t0 + ttl = 100`: the code
expires entries only when `entered < now - ttl` holds strictly, and the
fast path `oldest < expiry` also fails at equality. -/
theorem ttl_entry_survives_at_exact_expiry :
    mapGet (Flycacher.prune 100
      ({ values := [(0, ⟨5, 0⟩)], capacity := 10, pruneAmount := 1,
         ttl := some 100, oldest := 0 } : Flycacher Nat Int)).values 0 =
      some (⟨5, 0⟩ : Entry Int) := by
  decide

/-- **C2** (amended): with `ttl = T > 0`, in any reachable state (monotone
timestamps, conservative `oldest` cursor), after a `prune` or `get` call at a
time strictly greater than `t0 + T` every entry of the mapping has an
insertion timestamp newer than `t0`; in particular an entry inserted at `t0`
is absent. -/
theorem ttl_entry_absent_after_strict_expiry [DecidableEq K]
    (c : Flycacher K V) (T t0 now ni : Int) (resolver : K → Except E V) (k : K)
    (hT : c.ttl = some T) (hTpos : 0 < T)
    (hmono : timesSorted c.values) (hcons : c.oldestConservative)
    (hnow : t0 + T < now) (hni : now ≤ ni) :
    (∀ p ∈ (c.prune now).values, t0 < p.2.entered) ∧
    (∀ p ∈ (c.get now ni resolver k).1.values, t0 < p.2.entered) := by
  have h1 : ∀ p ∈ (c.prune now).values, t0 < p.2.entered := by
    intro p hp
    have := prune_mem_entered_ge hT hTpos now hmono hcons p hp
    omega
  refine ⟨h1, ?_⟩
  simp only [Flycacher.get]
  cases hm : mapGet (c.prune now).values k with
  | some e => exact h1
  | none =>
    cases hr : resolver k with
    | ok v =>
      show ∀ p ∈ mapSet (c.prune now).values k ⟨v, ni⟩, t0 < p.2.entered
      rw [mapSet_of_mapGet_none hm]
      intro p hp
      rcases List.mem_append.mp hp with hp | hp
      · exact h1 p hp
      · rw [List.mem_singleton] at hp
        subst hp
        show t0 < ni
        omega
    | error err => exact h1

/-- Witness for C2: pruning `[(0, entered 0), (1, entered 50)]` with
`ttl = 100` at time `101 > 0 + 100` removes the entry inserted at `t0 = 0`;
the surviving entry `(1, entered 50)` is strictly newer than `t0`. -/
theorem ttl_entry_absent_after_strict_expiry_witness :
    (0 : Int) < ((1, ⟨6, 50⟩) : Nat × Entry Int).2.entered :=
  (ttl_entry_absent_after_strict_expiry
    ({ values := [(0, ⟨5, 0⟩), (1, ⟨6, 50⟩)], capacity := 10, pruneAmount := 1,
       ttl := some 100, oldest := 0 } : Flycacher Nat Int)
    100 0 101 101 (fun _ => (Except.ok 7 : Except Unit Int)) 2
    rfl (by decide) (by decide) (by decide) (by decide) (by decide)).1
    (1, ⟨6, 50⟩) (by decide)

/-! ### C3 -/

/-- **C3** (counterexample): a `get` whose resolver fails does not leave the
cache exactly as before the call: the unconditional `prune()` at the start of
`get` already removed entries (here the over-capacity state loses both
entries), even though the failure propagates. -/
theorem failed_get_can_change_state :
    (Flycacher.get 10 10 (fun _ => (Except.error () : Except Unit Int)) 5
      { values := [(0, ⟨1, 0⟩), (1, ⟨2, 1⟩)], capacity := 1, pruneAmount := 1,
        ttl := none, oldest := 0 }).2.1 = Except.error () ∧
    (Flycacher.get 10 10 (fun _ => (Except.error () : Except Unit Int)) 5
      { values := [(0, ⟨1, 0⟩), (1, ⟨2, 1⟩)], capacity := 1, pruneAmount := 1,
        ttl := none, oldest := 0 }).1.values = [] :=
  ⟨rfl, by decide⟩

/-- **C3** (amended): if the resolver fails on a miss, the failure propagates
to the caller and the post-call state is exactly the pruned pre-call state:
no entry is cached for the key, and nothing changes beyond the unconditional
`prune()` performed at the start of the call. -/
theorem failed_get_state_eq_prune [DecidableEq K]
    (c : Flycacher K V) (np ni : Int) (resolver : K → Except E V) (k : K)
    (err : E) (hm : mapGet (c.prune np).values k = none)
    (hr : resolver k = Except.error err) :
    c.get np ni resolver k = (c.prune np, Except.error err, 1) :=
  get_miss_error_eq hm hr

/-- Witness for C3 at the counterexample input. -/
theorem failed_get_state_eq_prune_witness :
    Flycacher.get 10 10 (fun _ => (Except.error () : Except Unit Int)) 5
      { values := [(0, ⟨1, 0⟩), (1, ⟨2, 1⟩)], capacity := 1, pruneAmount := 1,
        ttl := none, oldest := 0 } =
      (Flycacher.prune 10
        ({ values := [(0, ⟨1, 0⟩), (1, ⟨2, 1⟩)], capacity := 1, pruneAmount := 1,
           ttl := none, oldest := 0 } : Flycacher Nat Int),
        (Except.error () : Except Unit Int), 1) :=
  failed_get_state_eq_prune
    ({ values := [(0, ⟨1, 0⟩), (1, ⟨2, 1⟩)], capacity := 1, pruneAmount := 1,
       ttl := none, oldest := 0 } : Flycacher Nat Int)
    10 10 (fun _ => (Except.error () : Except Unit Int)) 5 () (by decide) rfl

/-! ### C4 -/

/-- **C4**: the capacity pass of `prune` runs iff the size strictly exceeds
`capacity` (it is the identity at or below `capacity`, and strictly shrinks
the mapping above it), and it removes entries oldest-first until
size ≤ `capacity − pruneAmount`: the survivors are exactly the newest
entries, i.e. the list with its oldest
`size − (capacity − pruneAmount)` entries dropped. -/
theorem capacity_pass_drops_oldest_until_target (c : Flycacher K V) :
    ((c.values.length : Int) ≤ c.capacity → c.capacityPhase = c.values) ∧
    ((c.values.length : Int) > c.capacity →
      c.capacityPhase =
        c.values.drop (c.values.length - (c.capacity - c.pruneAmount))) ∧
    ((c.values.length : Int) > c.capacity →
      c.capacityPhase.length < c.values.length) := by
  refine ⟨?_, ?_, ?_⟩
  · intro h
    unfold Flycacher.capacityPhase
    rw [if_neg (not_lt.mpr h)]
  · intro h
    unfold Flycacher.capacityPhase
    rw [if_pos h]
    have hlen : c.capacity < c.values.length := by exact_mod_cast h
    have hne : c.values ≠ [] := by
      intro hnil
      rw [hnil] at hlen
      simp at hlen
    rw [capacityLoop_drop_formula c.capacity c.pruneAmount c.values hne]
    congr 1
    omega
  · intro h
    unfold Flycacher.capacityPhase
    rw [if_pos h]
    have hlen : c.capacity < c.values.length := by exact_mod_cast h
    have hne : c.values ≠ [] := by
      intro hnil
      rw [hnil] at hlen
      simp at hlen
    rw [capacityLoop_drop_formula c.capacity c.pruneAmount c.values hne,
      List.length_drop]
    omega

/-- Witness for C4, the spec's scenario: `capacity = 3`, `prune = 2`, entries
`a,b,c,d` (size 4): the capacity pass removes `a`, `b`, `c` and leaves only
`d`. -/
theorem capacity_pass_drops_oldest_until_target_witness :
    Flycacher.capacityPhase
      ({ values := [("a", ⟨1, 0⟩), ("b", ⟨2, 1⟩), ("c", ⟨3, 2⟩), ("d", ⟨4, 3⟩)],
         capacity := 3, pruneAmount := 2, ttl := none,
         oldest := 0 } : Flycacher String Int) = [("d", ⟨4, 3⟩)] := by
  have h := (capacity_pass_drops_oldest_until_target
    ({ values := [("a", ⟨1, 0⟩), ("b", ⟨2, 1⟩), ("c", ⟨3, 2⟩), ("d", ⟨4, 3⟩)],
       capacity := 3, pruneAmount := 2, ttl := none,
       oldest := 0 } : Flycacher String Int)).2.1 (by decide)
  rw [h]
  rfl

/-! ### C5 -/

/-- **C5**: `get` on a missing key invokes the resolver exactly once and
appends the resolved value as a new entry at the newest position; a
subsequent `get` for the same key that still finds the key after its own
prune (i.e. before the entry is expired or evicted) returns the stored value
with zero resolver invocations. -/
theorem get_miss_resolves_once_then_hits [DecidableEq K]
    (c : Flycacher K V) (np ni np2 ni2 : Int) (res res2 : K → Except E V)
    (k : K) (v : V)
    (hm : mapGet (c.prune np).values k = none)
    (hr : res k = Except.ok v) :
    c.get np ni res k =
      ({ c.prune np with values := (c.prune np).values ++ [(k, ⟨v, ni⟩)] },
        Except.ok v, 1) ∧
    (mapGet ((c.get np ni res k).1.prune np2).values k ≠ none →
      (c.get np ni res k).1.get np2 ni2 res2 k =
        ((c.get np ni res k).1.prune np2, Except.ok v, 0)) := by
  have h1 := @get_miss_ok_eq K V E _ np ni res k c v hm hr
  refine ⟨h1, ?_⟩
  intro hne
  have hvals : (c.get np ni res k).1.values =
      (c.prune np).values ++ [(k, Entry.mk v ni)] := by
    rw [h1]
  obtain ⟨j, hj⟩ := prune_values_eq_drop np2 (c.get np ni res k).1
  rw [hj, hvals] at hne
  have hsome : mapGet ((c.get np ni res k).1.prune np2).values k =
      some ⟨v, ni⟩ := by
    rw [hj, hvals]
    exact mapGet_drop_append hm j hne
  exact get_hit_eq hsome

/-- Witness for C5: a miss resolves to `42`; the second `get` (whose resolver
always fails) still returns `42` without invoking it. -/
theorem get_miss_resolves_once_then_hits_witness :
    (Flycacher.get 0 0 (fun _ => (Except.ok 42 : Except Unit Int)) 1
        ({ values := [], capacity := 3, pruneAmount := 2, ttl := some 100,
           oldest := 0 } : Flycacher Nat Int)).1.get 50 50
        (fun _ => Except.error ()) 1 =
      ((Flycacher.get 0 0 (fun _ => (Except.ok 42 : Except Unit Int)) 1
        ({ values := [], capacity := 3, pruneAmount := 2, ttl := some 100,
           oldest := 0 } : Flycacher Nat Int)).1.prune 50,
        Except.ok 42, 0) :=
  (get_miss_resolves_once_then_hits
    ({ values := [], capacity := 3, pruneAmount := 2, ttl := some 100,
       oldest := 0 } : Flycacher Nat Int)
    0 0 50 50 (fun _ => (Except.ok 42 : Except Unit Int))
    (fun _ => Except.error ()) 1 42 (by decide) rfl).2 (by decide)

/-! ### C7 -/

/-- **C7**: pruning (capacity pass and TTL pass together) removes a prefix of
the insertion order: the surviving mapping is exactly a suffix of the
original, so no entry is ever removed while an earlier-inserted entry
survives. -/
theorem prune_removes_only_oldest_prefix (now : Int) (c : Flycacher K V) :
    ∃ m, (c.prune now).values = c.values.drop m :=
  prune_values_eq_drop now c

/-! ### C8 -/

/-- **C8**: `prune` is idempotent: a second `prune` at the same observed time
with no intervening operations is a no-op, returning an identical state. -/
theorem prune_idempotent (now : Int) (c : Flycacher K V) :
    (c.prune now).prune now = c.prune now := by
  apply prune_noop
  · rw [prune_capacity]
    exact prune_length_le now c
  · intro t hT ht hne
    rw [prune_ttl] at hT
    exact prune_oldest_not_lt hT ht now hne

/-! ### C9 -/

/-- **C9**: `prune` only removes entries: the post-prune mapping is a sublist
of the pre-prune mapping, so every surviving entry existed before with the
same key, value and insertion timestamp, in the same relative order, and no
entry is added. -/
theorem prune_values_sublist (now : Int) (c : Flycacher K V) :
    ((c.prune now).values).Sublist c.values := by
  obtain ⟨m, hm⟩ := prune_values_eq_drop now c
  rw [hm]
  exact List.drop_sublist m c.values

/-! ### C10 -/

/-- **C10**: hit detection depends only on the key's presence (the code tests
the entry object, which is always truthy), never on the stored value: any
stored value — including falsy ones — is returned without invoking the
resolver. -/
theorem get_hit_value_independent [DecidableEq K]
    (c : Flycacher K V) (np ni t0 : Int) (resolver : K → Except E V) (k : K)
    (v : V) (h : mapGet (c.prune np).values k = some ⟨v, t0⟩) :
    c.get np ni resolver k = (c.prune np, Except.ok v, 0) :=
  get_hit_eq h

/-- Witness for C10 with the falsy value `none` (modelling `null`/
`undefined`): the hit returns it without calling the (failing) resolver. -/
theorem get_hit_value_independent_witness :
    Flycacher.get 5 5 (fun _ => (Except.error () : Except Unit (Option Int))) 0
      ({ values := [(0, ⟨none, 0⟩)], capacity := 3, pruneAmount := 1,
         ttl := none, oldest := 0 } : Flycacher Nat (Option Int)) =
      (Flycacher.prune 5
        ({ values := [(0, ⟨none, 0⟩)], capacity := 3, pruneAmount := 1,
           ttl := none, oldest := 0 } : Flycacher Nat (Option Int)),
        Except.ok none, 0) :=
  get_hit_value_independent
    ({ values := [(0, ⟨none, 0⟩)], capacity := 3, pruneAmount := 1,
       ttl := none, oldest := 0 } : Flycacher Nat (Option Int))
    5 5 0 (fun _ => Except.error ()) 0 none (by decide)

/-! ### C6 -/

/-- **C6**: the `oldest` cursor stays a conservative lower bound: after
construction and after every `delete`, `clear`, `prune` and `get` (with a
monotone clock: existing timestamps and the cursor are no newer than the
observed prune time, which is no later than the insert time), `oldest` is
never newer than the insertion timestamp of any surviving entry. -/
theorem oldest_conservative_preserved [DecidableEq K]
    (c : Flycacher K V) (now np ni : Int) (options : FlycacherOptions)
    (resolver : K → Except E V) (k k2 : K)
    (hmono : timesSorted c.values) (hcons : c.oldestConservative)
    (hentered : ∀ p ∈ c.values, p.2.entered ≤ np)
    (holdnp : c.oldest ≤ np) (hnpni : np ≤ ni) :
    (Flycacher.construct K V now options).oldestConservative ∧
    (c.delete k2).oldestConservative ∧
    c.clear.oldestConservative ∧
    (c.prune np).oldestConservative ∧
    (c.get np ni resolver k).1.oldestConservative := by
  have hprune := prune_oldestConservative np c hmono hcons
  refine ⟨?_, ?_, ?_, hprune, ?_⟩
  · intro p hp
    simp [Flycacher.construct] at hp
  · intro p hp
    exact hcons p ((mapDelete_sublist c.values k2).subset hp)
  · intro p hp
    simp [Flycacher.clear] at hp
  · have hle : (c.prune np).oldest ≤ np := prune_oldest_le np c holdnp hentered
    simp only [Flycacher.get]
    cases hm : mapGet (c.prune np).values k with
    | some e => exact hprune
    | none =>
      cases hr : resolver k with
      | ok v =>
        intro p hp
        have hp2 : p ∈ mapSet (c.prune np).values k ⟨v, ni⟩ := hp
        rw [mapSet_of_mapGet_none hm] at hp2
        rcases List.mem_append.mp hp2 with hp2 | hp2
        · exact hprune p hp2
        · rw [List.mem_singleton] at hp2
          subst hp2
          show (c.prune np).oldest ≤ ni
          omega
      | error err => exact hprune

/-- Witness for C6 on a concrete reachable state. -/
theorem oldest_conservative_preserved_witness :
    ((Flycacher.get 10 12 (fun _ => (Except.ok 7 : Except Unit Int)) 3
      ({ values := [(0, ⟨1, 2⟩), (1, ⟨2, 5⟩)], capacity := 5, pruneAmount := 2,
         ttl := some 4, oldest := 1 } : Flycacher Nat Int)).1).oldestConservative :=
  (oldest_conservative_preserved
    ({ values := [(0, ⟨1, 2⟩), (1, ⟨2, 5⟩)], capacity := 5, pruneAmount := 2,
       ttl := some 4, oldest := 1 } : Flycacher Nat Int)
    0 10 12 { capacity := 5, prune := 2, ttl := some 4 }
    (fun _ => (Except.ok 7 : Except Unit Int)) 3 0
    (by decide) (by decide) (by decide) (by decide) (by decide)).2.2.2.2
